import Mathlib

/-!
Verification of the llama-bridge-py backend against its specification.

The development shallowly embeds the Python backend
(`backend/app/text_splitter.py`, `data_loader.py`, `main.py`,
`rag_chain.py`, `vector_store.py`) in Lean.  Text is `List Char`,
Python dicts are association lists carrying an object id (`oid`)
that models Python object identity, and fallible code returns
`Except`.  External collaborators (PDF/TXT parsers, the embedding
model, the chroma query, the LLM stream) are passed in as function
parameters.  The recursive character splitter lives in the external
langchain dependency, not in this repository; it is modelled from
the specification (see `split_text_rec`).
-/

set_option autoImplicit false

namespace LlamaBridge

/-! ### Basic string utilities (Python string semantics on `List Char`) -/

/-- The ASCII whitespace characters stripped by Python `str.strip()`. -/
def isPySpace (c : Char) : Bool :=
  c = ' ' || c = '\t' || c = '\n' || c = '\x0d' || c = '\x0b' || c = '\x0c'

/-- Remove trailing whitespace (the tail half of Python `str.strip()`). -/
def stripEnd (l : List Char) : List Char :=
  (l.reverse.dropWhile isPySpace).reverse

/-- Python `str.strip()`: drop leading and trailing whitespace. -/
def pstrip (l : List Char) : List Char :=
  stripEnd (l.dropWhile isPySpace)

/-- Python `str.lower()` (ASCII portion). -/
def lowerChars (l : List Char) : List Char := l.map Char.toLower

/-- `listStartsWith pat l` is true when `pat` is an initial segment of `l`. -/
def listStartsWith : List Char → List Char → Bool
  | [], _ => true
  | _ :: _, [] => false
  | a :: as, b :: bs => a = b && listStartsWith as bs

/-- Whether the separator `sep` occurs somewhere in `l` (Python `sep in l`). -/
def seqOccurs (sep : List Char) : List Char → Bool
  | [] => sep.isEmpty
  | c :: rest => listStartsWith sep (c :: rest) || seqOccurs sep rest

/-- Worker for `splitOnSeq`: `acc` is the current segment, reversed.
`fuel` bounds the recursion depth so that the recursion is structural
(and hence kernel-reducible); every step consumes at least one
character, so with `fuel = text.length` the fuel-exhausted branch is
unreachable. -/
def splitOnSeqAux (sep : List Char) : Nat → List Char → List Char → List (List Char)
  | _, [], acc => [acc.reverse]
  | 0, l, acc => [acc.reverse ++ l]
  | fuel + 1, c :: rest, acc =>
    if !sep.isEmpty && listStartsWith sep (c :: rest) then
      acc.reverse :: splitOnSeqAux sep fuel (rest.drop (sep.length - 1)) []
    else
      splitOnSeqAux sep fuel rest (c :: acc)

/-- Split `text` at every (non-overlapping, leftmost) occurrence of the
separator `sep`, removing the separator, as Python `text.split(sep)` does
for a non-empty separator. -/
def splitOnSeq (sep text : List Char) : List (List Char) :=
  splitOnSeqAux sep text.length text []

/-- Split a list on a single character, keeping empty segments,
as Python `s.split('.')` does (`splitOnCharList '.'`).  The result is
always non-empty, so prepending to its head is total. -/
def splitOnCharList (c : Char) : List Char → List (List Char)
  | [] => [[]]
  | x :: xs =>
    if x = c then
      [] :: splitOnCharList c xs
    else
      (x :: (splitOnCharList c xs).headD []) :: (splitOnCharList c xs).tail

/-- Worker for `chunkEvery`; `fuel` makes the recursion structural.
Every step consumes at least one character, so with `fuel = l.length`
the fuel-exhausted branch is unreachable. -/
def chunkEveryAux (cs : Nat) : Nat → List Char → List (List Char)
  | _, [] => []
  | 0, l => [l]
  | fuel + 1, c :: rest => (c :: rest.take (cs - 1)) :: chunkEveryAux cs fuel (rest.drop (cs - 1))

/-- Fixed-size character slicing: cut `l` into consecutive pieces of
`cs` characters (the last may be shorter).  This is the character-level
fallback of the splitter when every separator is exhausted. -/
def chunkEvery (cs : Nat) (l : List Char) : List (List Char) :=
  chunkEveryAux cs l.length l

/-- Python `sep.join(parts)`. -/
def strJoin (sep : List Char) : List (List Char) → List Char
  | [] => []
  | [x] => x
  | x :: y :: xs => x ++ sep ++ strJoin sep (y :: xs)

/-! ### The recursive splitter

`TextSplitter` (backend/app/text_splitter.py) delegates the actual text
splitting to langchain's `RecursiveCharacterTextSplitter`, configured with
the prioritized separator list of lines 13–24 and `length_function=len`.
That class is an external dependency whose code is not part of this
repository, so it is modelled from the specification (§4.2). -/

/-- The prioritized separator list configured in `TextSplitter.__init__`
(text_splitter.py lines 13–24).  The final empty-string separator of the
source list is represented by the character-level fallback taken by
`split_text_rec` when this list is exhausted. -/
def defaultSeparators : List (List Char) :=
  [['\n', '\n'], ['\n'],
   ['.', ' '], ['!', ' '], ['?', ' '],
   [';', ' '], [':', ' '], [',', ' '], [' ']]

/-- Modelled from the spec: step 3–4 of the splitting algorithm (§4.2).
Greedily reassemble adjacent `parts` (which were split on `sep`) into
chunks whose length never exceeds `cs`; a part that alone exceeds `cs`
is handed to `recurse` (splitting with the remaining lower-priority
separators); each chunk after the first starts with the trailing `co`
characters of the previous chunk (the overlap), whenever including them
keeps the chunk within the `cs` bound.  `cur` is the chunk being built. -/
def mergeParts (cs co : Nat) (sep : List Char)
    (recurse : List Char → List (List Char)) :
    List Char → List (List Char) → List (List Char)
  | cur, [] => if cur.isEmpty then [] else [cur]
  | cur, p :: ps =>
    if cs < p.length then
      (if cur.isEmpty then [] else [cur]) ++ recurse p ++
        mergeParts cs co sep recurse [] ps
    else
      if (if cur.isEmpty then p else cur ++ sep ++ p).length ≤ cs then
        mergeParts cs co sep recurse (if cur.isEmpty then p else cur ++ sep ++ p) ps
      else
        cur :: mergeParts cs co sep recurse
          (if (cur.drop (cur.length - co) ++ sep ++ p).length ≤ cs then
            cur.drop (cur.length - co) ++ sep ++ p
           else p) ps

/-- Modelled from the spec: the recursive splitting algorithm of §4.2
(implemented in this repository's external langchain dependency).  Use the
first separator in priority order that occurs in the text, split on it and
greedily merge the parts (`mergeParts`), recursing into oversized parts
with the lower-priority separators; when the separator list is exhausted
(the empty-string separator), fall back to fixed-length character
slicing. -/
def split_text_rec (cs co : Nat) : List (List Char) → List Char → List (List Char)
  | [], text => chunkEvery cs text
  | s :: rest, text =>
    if seqOccurs s text then
      mergeParts cs co s (split_text_rec cs co rest) []
        (splitOnSeq s text)
    else
      split_text_rec cs co rest text

/-- `RecursiveCharacterTextSplitter.split_text` with the configuration of
`TextSplitter.__init__`: the recursive algorithm over the default
separator list. -/
def split_text (cs co : Nat) (text : List Char) : List (List Char) :=
  split_text_rec cs co defaultSeparators text

/-! ### Documents and `TextSplitter.split_documents` -/

/-- A Python dict of document metadata.  `oid` models the identity of the
dict object in the Python heap (two dicts with equal `entries` but
distinct `oid` are independent objects: mutating one cannot affect the
other); `entries` is its contents. -/
structure PyDict where
  oid : Nat
  entries : List (String × String)
deriving DecidableEq, Repr

/-- A langchain `Document`: page content plus a metadata dict. -/
structure PyDocument where
  page_content : List Char
  metadata : PyDict
deriving DecidableEq, Repr

/-- The chunk-collection loop of `TextSplitter.split_documents`
(text_splitter.py lines 41–47): for each chunk, if it is non-empty after
stripping, append a `Document` holding the stripped chunk and a fresh
copy (`dict.copy()`, hence a fresh `oid` drawn from the counter `n`) of
the originating document's metadata. -/
def chunkDocs (n : Nat) (meta : PyDict) :
    List (List Char) → List PyDocument × Nat
  | [] => ([], n)
  | c :: cs' =>
    if (pstrip c).isEmpty then
      chunkDocs n meta cs'
    else
      (⟨pstrip c, ⟨n, meta.entries⟩⟩ :: (chunkDocs (n + 1) meta cs').1,
       (chunkDocs (n + 1) meta cs').2)

/-- `TextSplitter.split_documents` (text_splitter.py lines 28–49): strip
each document's content, split it with the configured splitter, and keep
the non-empty stripped chunks, each carrying a fresh copy of the source
document's metadata.  `n` is the fresh-object counter threaded through
the metadata copies; it is returned updated. -/
def split_documents (cs co n : Nat) :
    List PyDocument → List PyDocument × Nat
  | [] => ([], n)
  | doc :: docs =>
    let cd := chunkDocs n doc.metadata (split_text cs co (pstrip doc.page_content))
    let sd := split_documents cs co cd.2 docs
    (cd.1 ++ sd.1, sd.2)

/-! ### Length bounds for the splitter -/

theorem chunkEveryAux_length_le (cs : Nat) (hcs : 1 ≤ cs) :
    ∀ (fuel : Nat) (l : List Char), l.length ≤ fuel →
      ∀ c ∈ chunkEveryAux cs fuel l, c.length ≤ cs := by
  intro fuel
  induction fuel with
  | zero =>
    intro l hl c hc
    rw [List.length_eq_zero.mp (Nat.le_zero.mp hl)] at hc
    simp [chunkEveryAux] at hc
  | succ k ih =>
    intro l hl c hc
    match l with
    | [] => simp [chunkEveryAux] at hc
    | a :: rest =>
      simp only [chunkEveryAux] at hc
      rcases List.mem_cons.mp hc with h | h
      · subst h
        simp only [List.length_cons, List.length_take]
        omega
      · refine ih (rest.drop (cs - 1)) ?_ c h
        simp only [List.length_drop]
        simp only [List.length_cons] at hl
        omega

theorem chunkEvery_length_le (cs : Nat) (hcs : 1 ≤ cs) (l : List Char) :
    ∀ c ∈ chunkEvery cs l, c.length ≤ cs :=
  chunkEveryAux_length_le cs hcs l.length l (Nat.le_refl _)

theorem mergeParts_length_le (cs co : Nat) (sep : List Char)
    (recurse : List Char → List (List Char))
    (hrec : ∀ t, ∀ c ∈ recurse t, c.length ≤ cs) :
    ∀ (parts : List (List Char)) (cur : List Char), cur.length ≤ cs →
      ∀ c ∈ mergeParts cs co sep recurse cur parts, c.length ≤ cs := by
  intro parts
  induction parts with
  | nil =>
    intro cur hcur c hc
    simp only [mergeParts] at hc
    split at hc
    · simp at hc
    · rw [List.mem_singleton.mp hc]; exact hcur
  | cons p ps ih =>
    intro cur hcur c hc
    simp only [mergeParts] at hc
    split at hc
    · -- oversized part: flush `cur`, recurse into `p`
      rcases List.mem_append.mp hc with h | h
      · rcases List.mem_append.mp h with h1 | h1
        · split at h1
          · simp at h1
          · rw [List.mem_singleton.mp h1]; exact hcur
        · exact hrec p c h1
      · exact ih [] (Nat.zero_le cs) c h
    · rename_i hp
      split at hc
      all_goals
        split at hc
        · rename_i h1
          exact ih _ h1 c hc
        · rcases List.mem_cons.mp hc with h | h
          · rw [h]; exact hcur
          · refine ih _ ?_ c h
            split
            · rename_i h2; exact h2
            · exact Nat.le_of_not_lt hp

theorem split_text_rec_length_le (cs co : Nat) (hcs : 1 ≤ cs) :
    ∀ (seps : List (List Char)) (text : List Char),
      ∀ c ∈ split_text_rec cs co seps text, c.length ≤ cs := by
  intro seps
  induction seps with
  | nil =>
    intro text c hc
    simp only [split_text_rec] at hc
    exact chunkEvery_length_le cs hcs text c hc
  | cons s rest ih =>
    intro text c hc
    simp only [split_text_rec] at hc
    split at hc
    · exact mergeParts_length_le cs co s _ (fun t => ih t) _ []
        (Nat.zero_le cs) c hc
    · exact ih text c hc

/-- Every chunk returned by the modelled `split_text` has length at most
the configured `chunk_size` (provided `chunk_size ≥ 1`). -/
theorem split_text_length_le (cs co : Nat) (hcs : 1 ≤ cs) (text : List Char) :
    ∀ c ∈ split_text cs co text, c.length ≤ cs :=
  split_text_rec_length_le cs co hcs defaultSeparators text

theorem dropWhile_length_le (p : Char → Bool) (l : List Char) :
    (l.dropWhile p).length ≤ l.length := by
  induction l with
  | nil => simp
  | cons a t ih =>
    rw [List.dropWhile_cons]
    split
    · exact Nat.le_trans ih (by simp)
    · exact Nat.le_refl _

theorem pstrip_length_le (l : List Char) : (pstrip l).length ≤ l.length := by
  unfold pstrip stripEnd
  simp only [List.length_reverse]
  exact Nat.le_trans (dropWhile_length_le _ _)
    (by simpa using dropWhile_length_le isPySpace l)

/-! ### Stripping is idempotent -/

theorem dropWhile_idem (p : Char → Bool) (l : List Char) :
    (l.dropWhile p).dropWhile p = l.dropWhile p := by
  induction l with
  | nil => simp
  | cons a t ih =>
    rw [List.dropWhile_cons]
    split
    · exact ih
    · rw [List.dropWhile_cons]; simp_all

/-- If `l` has no removable leading whitespace, neither has `stripEnd l`. -/
theorem dropWhile_stripEnd (l : List Char)
    (h : l.dropWhile isPySpace = l) :
    (stripEnd l).dropWhile isPySpace = stripEnd l := by
  match l with
  | [] => simp [stripEnd]
  | a :: t =>
    have ha : ¬ isPySpace a = true := by
      intro hpa
      rw [List.dropWhile_cons, if_pos hpa] at h
      have hlen := congrArg List.length h
      simp only [List.length_cons] at hlen
      have := dropWhile_length_le isPySpace t
      omega
    unfold stripEnd
    rw [List.reverse_cons, List.dropWhile_append]
    split
    · simp [List.dropWhile_cons, ha]
    · rw [List.reverse_append]
      simp only [List.reverse_cons, List.reverse_nil, List.nil_append,
        List.singleton_append]
      rw [List.dropWhile_cons, if_neg ha]

theorem stripEnd_idem (l : List Char) :
    stripEnd (stripEnd l) = stripEnd l := by
  unfold stripEnd
  rw [List.reverse_reverse, dropWhile_idem]

theorem pstrip_idem (l : List Char) : pstrip (pstrip l) = pstrip l := by
  have h1 : (l.dropWhile isPySpace).dropWhile isPySpace = l.dropWhile isPySpace :=
    dropWhile_idem isPySpace l
  have h2 := dropWhile_stripEnd (l.dropWhile isPySpace) h1
  show stripEnd ((pstrip l).dropWhile isPySpace) = pstrip l
  rw [show pstrip l = stripEnd (l.dropWhile isPySpace) from rfl, h2]
  exact stripEnd_idem _

/-! ### Membership and freshness properties of `split_documents` -/

theorem chunkDocs_counter_mono (meta : PyDict) :
    ∀ (chunks : List (List Char)) (n : Nat), n ≤ (chunkDocs n meta chunks).2 := by
  intro chunks
  induction chunks with
  | nil => intro n; simp [chunkDocs]
  | cons c cs' ih =>
    intro n
    by_cases hemp : (pstrip c).isEmpty = true
    · simpa only [chunkDocs, hemp, if_true] using ih n
    · simp only [chunkDocs, hemp, if_false]
      exact Nat.le_trans (Nat.le_succ n) (ih (n + 1))

theorem chunkDocs_mem (meta : PyDict) :
    ∀ (chunks : List (List Char)) (n : Nat) (d : PyDocument),
      d ∈ (chunkDocs n meta chunks).1 →
      (∃ c ∈ chunks, d.page_content = pstrip c ∧ (pstrip c).isEmpty = false) ∧
        d.metadata.entries = meta.entries ∧
        n ≤ d.metadata.oid ∧ d.metadata.oid < (chunkDocs n meta chunks).2 := by
  intro chunks
  induction chunks with
  | nil => intro n d hd; simp [chunkDocs] at hd
  | cons c cs' ih =>
    intro n d hd
    by_cases hemp : (pstrip c).isEmpty = true
    · simp only [chunkDocs, hemp, if_true] at hd ⊢
      obtain ⟨⟨c', hc', hpc, hne⟩, hent, hle, hlt⟩ := ih n d hd
      exact ⟨⟨c', List.mem_cons_of_mem c hc', hpc, hne⟩, hent, hle, hlt⟩
    · simp only [chunkDocs, hemp, if_false] at hd ⊢
      rcases List.mem_cons.mp hd with h | h
      · subst h
        refine ⟨⟨c, List.mem_cons_self c cs', rfl, by simpa using hemp⟩, rfl,
          Nat.le_refl n, ?_⟩
        exact Nat.lt_of_lt_of_le (Nat.lt_succ_self n) (chunkDocs_counter_mono meta cs' (n + 1))
      · obtain ⟨⟨c', hc', hpc, hne⟩, hent, hle, hlt⟩ := ih (n + 1) d h
        exact ⟨⟨c', List.mem_cons_of_mem c hc', hpc, hne⟩, hent,
          Nat.le_trans (Nat.le_succ n) hle, hlt⟩

theorem split_documents_counter_mono (cs co : Nat) :
    ∀ (docs : List PyDocument) (n : Nat), n ≤ (split_documents cs co n docs).2 := by
  intro docs
  induction docs with
  | nil => intro n; simp [split_documents]
  | cons doc docs ih =>
    intro n
    simp only [split_documents]
    exact Nat.le_trans (chunkDocs_counter_mono _ _ n) (ih _)

theorem split_documents_mem (cs co : Nat) :
    ∀ (docs : List PyDocument) (n : Nat) (d : PyDocument),
      d ∈ (split_documents cs co n docs).1 →
      (∃ doc ∈ docs, d.metadata.entries = doc.metadata.entries ∧
        ∃ c ∈ split_text cs co (pstrip doc.page_content),
          d.page_content = pstrip c ∧ (pstrip c).isEmpty = false) ∧
        n ≤ d.metadata.oid ∧ d.metadata.oid < (split_documents cs co n docs).2 := by
  intro docs
  induction docs with
  | nil => intro n d hd; simp [split_documents] at hd
  | cons doc docs ih =>
    intro n d hd
    simp only [split_documents] at hd ⊢
    rcases List.mem_append.mp hd with h | h
    · obtain ⟨⟨c, hc, hpc, hne⟩, hent, hle, hlt⟩ := chunkDocs_mem _ _ _ _ h
      exact ⟨⟨doc, List.mem_cons_self doc docs, hent, c, hc, hpc, hne⟩, hle,
        Nat.lt_of_lt_of_le hlt (split_documents_counter_mono cs co docs _)⟩
    · obtain ⟨⟨doc', hdoc', hent, c, hc, hpc, hne⟩, hle, hlt⟩ := ih _ _ h
      exact ⟨⟨doc', List.mem_cons_of_mem doc hdoc', hent, c, hc, hpc, hne⟩,
        Nat.le_trans (chunkDocs_counter_mono _ _ n) hle, hlt⟩

theorem chunkDocs_pairwise (meta : PyDict) :
    ∀ (chunks : List (List Char)) (n : Nat),
      ((chunkDocs n meta chunks).1).Pairwise
        (fun a b => a.metadata.oid < b.metadata.oid) := by
  intro chunks
  induction chunks with
  | nil => intro n; simp [chunkDocs]
  | cons c cs' ih =>
    intro n
    by_cases hemp : (pstrip c).isEmpty = true
    · simpa only [chunkDocs, hemp, if_true] using ih n
    · simp only [chunkDocs, hemp, if_false]
      refine List.Pairwise.cons ?_ (ih (n + 1))
      intro b hb
      have := (chunkDocs_mem meta cs' (n + 1) b hb).2.2.1
      simpa using this

theorem split_documents_pairwise (cs co : Nat) :
    ∀ (docs : List PyDocument) (n : Nat),
      ((split_documents cs co n docs).1).Pairwise
        (fun a b => a.metadata.oid < b.metadata.oid) := by
  intro docs
  induction docs with
  | nil => intro n; simp [split_documents]
  | cons doc docs ih =>
    intro n
    simp only [split_documents]
    refine List.pairwise_append.mpr ⟨chunkDocs_pairwise _ _ _, ih _, ?_⟩
    intro a ha b hb
    have h1 := (chunkDocs_mem _ _ _ _ ha).2.2.2
    have h2 := (split_documents_mem cs co docs _ b hb).2.1
    omega

theorem chunkDocs_view_eq (meta : PyDict) :
    ∀ (chunks : List (List Char)) (n₁ n₂ : Nat),
      ((chunkDocs n₁ meta chunks).1).map (fun d => (d.page_content, d.metadata.entries))
        = ((chunkDocs n₂ meta chunks).1).map (fun d => (d.page_content, d.metadata.entries)) := by
  intro chunks
  induction chunks with
  | nil => intro n₁ n₂; simp [chunkDocs]
  | cons c cs' ih =>
    intro n₁ n₂
    by_cases hemp : (pstrip c).isEmpty = true
    · simp only [chunkDocs, hemp, if_true]
      exact ih n₁ n₂
    · simp only [chunkDocs, hemp, Bool.false_eq_true, if_false, List.map_cons]
      rw [ih (n₁ + 1) (n₂ + 1)]

/-! ### The claims about `TextSplitter.split_documents` (C1–C4) -/

/-- C1: for every list of input documents and every configuration with
`chunk_overlap < chunk_size`, every chunk produced by
`TextSplitter.split_documents` has text length at most `chunk_size`.
(This is stronger than the claim, which additionally permits an oversized
chunk derived from a single atomic separator-free token: in the modelled
splitter the character-level fallback slices such tokens, so the
exception never occurs and the claimed disjunction holds.) -/
theorem C1_chunk_length_le (cs co n : Nat) (docs : List PyDocument)
    (h : co < cs) :
    ∀ d ∈ (split_documents cs co n docs).1, d.page_content.length ≤ cs := by
  intro d hd
  obtain ⟨⟨doc, _, _, c, hc, hpc, _⟩, _⟩ := split_documents_mem cs co docs n d hd
  rw [hpc]
  exact Nat.le_trans (pstrip_length_le c)
    (split_text_length_le cs co (by omega) _ c hc)

theorem C1_witness :
    (2 < 5) ∧
      (⟨"hello".data, ⟨1, [("page", "1")]⟩⟩ : PyDocument).page_content.length ≤ 5 :=
  ⟨by decide,
    C1_chunk_length_le 5 2 1 [⟨"  hello world foo  ".data, ⟨0, [("page", "1")]⟩⟩]
      (by decide) ⟨"hello".data, ⟨1, [("page", "1")]⟩⟩ (by decide)⟩

/-- C2: every chunk in the list returned by `TextSplitter.split_documents`
has non-empty text after whitespace trimming: no produced chunk is empty
or whitespace-only. -/
theorem C2_no_empty_chunk (cs co n : Nat) (docs : List PyDocument) :
    ∀ d ∈ (split_documents cs co n docs).1, pstrip d.page_content ≠ [] := by
  intro d hd
  obtain ⟨⟨doc, _, _, c, _, hpc, hne⟩, _⟩ := split_documents_mem cs co docs n d hd
  rw [hpc, pstrip_idem]
  intro hnil
  rw [hnil] at hne
  simp at hne

theorem C2_witness :
    (⟨"hello".data, ⟨1, [("page", "1")]⟩⟩ : PyDocument)
        ∈ (split_documents 5 2 1 [⟨"  hello world foo  ".data, ⟨0, [("page", "1")]⟩⟩]).1 ∧
      pstrip "hello".data ≠ [] :=
  ⟨by decide,
    C2_no_empty_chunk 5 2 1 [⟨"  hello world foo  ".data, ⟨0, [("page", "1")]⟩⟩]
      ⟨"hello".data, ⟨1, [("page", "1")]⟩⟩ (by decide)⟩

/-- `chunkDocs` keeps, in order, exactly the non-blank chunks, stripped,
and each one carries the originating metadata's entries. -/
theorem chunkDocs_view (meta : PyDict) :
    ∀ (chunks : List (List Char)) (n : Nat),
      ((chunkDocs n meta chunks).1).map (fun d => (d.page_content, d.metadata.entries))
        = (chunks.filter (fun c => !(pstrip c).isEmpty)).map
            (fun c => (pstrip c, meta.entries)) := by
  intro chunks
  induction chunks with
  | nil => intro n; simp [chunkDocs]
  | cons c cs' ih =>
    intro n
    by_cases hemp : (pstrip c).isEmpty = true
    · simp only [chunkDocs, hemp, if_true, List.filter_cons]
      rw [ih n]
      simp [hemp]
    · simp only [chunkDocs, hemp, Bool.false_eq_true, if_false, List.map_cons,
        List.filter_cons]
      rw [ih (n + 1)]
      simp [hemp]

/-- The output of `split_documents`, viewed as (text, metadata entries)
pairs, is the in-order concatenation over the input documents of that
document's own chunks, each tagged with that document's entries: every
chunk is attributed to precisely the document it was split from. -/
theorem split_documents_per_doc_view (cs co : Nat) :
    ∀ (docs : List PyDocument) (n : Nat),
      ((split_documents cs co n docs).1).map (fun d => (d.page_content, d.metadata.entries))
        = (docs.map (fun doc =>
            ((split_text cs co (pstrip doc.page_content)).filter
                (fun c => !(pstrip c).isEmpty)).map
              (fun c => (pstrip c, doc.metadata.entries)))).flatten := by
  intro docs
  induction docs with
  | nil => intro n; simp [split_documents]
  | cons doc docs ih =>
    intro n
    simp only [split_documents, List.map_append, List.map_cons, List.flatten_cons]
    rw [chunkDocs_view, ih]

/-- C3: every chunk produced by `TextSplitter.split_documents` carries
metadata value-equal to the metadata of its originating document — the
output, viewed as (text, metadata entries) pairs, is the in-order
concatenation over the input documents of that document's own stripped
chunks, each tagged with that same document's entries — and that
metadata is a fresh copy: its object id (`oid`, modelling Python object
identity) differs from every input document's metadata object and from
every other chunk's metadata object, so mutating one chunk's metadata
dict can affect neither the originating document nor any other chunk.
The hypothesis says the counter `n` is fresh (all existing dicts have
ids below it), which holds of a real allocator. -/
theorem C3_metadata_copy (cs co n : Nat) (docs : List PyDocument)
    (hfresh : ∀ doc ∈ docs, doc.metadata.oid < n) :
    ((split_documents cs co n docs).1).map (fun d => (d.page_content, d.metadata.entries))
        = (docs.map (fun doc =>
            ((split_text cs co (pstrip doc.page_content)).filter
                (fun c => !(pstrip c).isEmpty)).map
              (fun c => (pstrip c, doc.metadata.entries)))).flatten ∧
      (∀ d ∈ (split_documents cs co n docs).1,
        ∀ doc ∈ docs, d.metadata.oid ≠ doc.metadata.oid) ∧
      ((split_documents cs co n docs).1).Pairwise
        (fun a b => a.metadata.oid ≠ b.metadata.oid) := by
  refine ⟨split_documents_per_doc_view cs co docs n, ?_, ?_⟩
  · intro d hd
    obtain ⟨_, hle, _⟩ := split_documents_mem cs co docs n d hd
    intro doc' hdoc'
    have := hfresh doc' hdoc'
    omega
  · exact (split_documents_pairwise cs co docs n).imp (fun h => Nat.ne_of_lt h)

theorem C3_witness :
    (∀ doc ∈ [(⟨"  alpha beta  ".data, ⟨0, [("page", "1")]⟩⟩ : PyDocument),
              (⟨"gamma".data, ⟨1, [("page", "2")]⟩⟩ : PyDocument)],
        doc.metadata.oid < 2) ∧
      ((split_documents 5 2 2
            [⟨"  alpha beta  ".data, ⟨0, [("page", "1")]⟩⟩,
             ⟨"gamma".data, ⟨1, [("page", "2")]⟩⟩]).1).map
          (fun d => (d.page_content, d.metadata.entries))
        = ([(⟨"  alpha beta  ".data, ⟨0, [("page", "1")]⟩⟩ : PyDocument),
            (⟨"gamma".data, ⟨1, [("page", "2")]⟩⟩ : PyDocument)].map (fun doc =>
            ((split_text 5 2 (pstrip doc.page_content)).filter
                (fun c => !(pstrip c).isEmpty)).map
              (fun c => (pstrip c, doc.metadata.entries)))).flatten :=
  ⟨by decide,
    (C3_metadata_copy 5 2 2
        [⟨"  alpha beta  ".data, ⟨0, [("page", "1")]⟩⟩,
         ⟨"gamma".data, ⟨1, [("page", "2")]⟩⟩] (by decide)).1⟩

/-- C4: `TextSplitter.split_documents` is deterministic: it is a pure
function of its inputs, and its observable output — the chunk texts in
order together with their metadata contents — does not depend on the
allocator counter (the only inter-invocation state), so any two
invocations on the same documents and configuration yield identical
chunk sequences. -/
theorem C4_deterministic (cs co n₁ n₂ : Nat) (docs : List PyDocument) :
    ((split_documents cs co n₁ docs).1).map (fun d => (d.page_content, d.metadata.entries))
      = ((split_documents cs co n₂ docs).1).map (fun d => (d.page_content, d.metadata.entries)) := by
  induction docs generalizing n₁ n₂ with
  | nil => simp [split_documents]
  | cons doc docs ih =>
    simp only [split_documents, List.map_append]
    rw [chunkDocs_view_eq doc.metadata _ n₁ n₂, ih]

/-! ### `DataLoader.load_document` (data_loader.py) -/

/-- `UnsupportedFormatError` of the specification's error taxonomy (§7):
raised by `DataLoader.load_document` (as a Python `ValueError` whose
message is `"Unsupported file extension: <ext>"`) when the extension has
no registered parser. -/
inductive LoadError where
  | unsupportedFormat (ext : List Char)
deriving DecidableEq, Repr

/-- The error's message, `str(e)` as exposed at the API boundary. -/
def LoadError.message : LoadError → List Char
  | .unsupportedFormat ext => "Unsupported file extension: ".data ++ ext

/-- `DataLoader.load_document` (data_loader.py lines 12–22): lowercase the
path, take the segment after the last `'.'` as the extension, raise the
unsupported-format error when `.<ext>` is not a registered key
(`.pdf`/`.txt`), and otherwise run the registered parser on the path.
The external parsers (`PyPDFLoader`, `TextLoader`) are parameters. -/
def load_document (pdfLoad txtLoad : List Char → List PyDocument)
    (file_path : List Char) : Except LoadError (List PyDocument) :=
  if '.' :: (splitOnCharList '.' (lowerChars file_path)).getLastD [] = ".pdf".data then
    .ok (pdfLoad file_path)
  else if '.' :: (splitOnCharList '.' (lowerChars file_path)).getLastD [] = ".txt".data then
    .ok (txtLoad file_path)
  else
    .error (.unsupportedFormat ((splitOnCharList '.' (lowerChars file_path)).getLastD []))

theorem splitOnCharList_ne_nil (c : Char) : ∀ l, splitOnCharList c l ≠ [] := by
  intro l
  induction l with
  | nil => simp [splitOnCharList]
  | cons x xs ih =>
    simp only [splitOnCharList]
    split <;> simp

theorem splitOnCharList_of_not_mem (c : Char) :
    ∀ l, c ∉ l → splitOnCharList c l = [l] := by
  intro l
  induction l with
  | nil => intro _; simp [splitOnCharList]
  | cons x xs ih =>
    intro hmem
    have hx : ¬ x = c := fun h => hmem (h ▸ List.mem_cons_self x xs)
    have hxs : c ∉ xs := fun h => hmem (List.mem_cons_of_mem x h)
    simp only [splitOnCharList, ih hxs]
    rw [if_neg hx]
    simp

theorem splitOnCharList_length (c : Char) :
    ∀ l, (splitOnCharList c l).length = l.count c + 1 := by
  intro l
  induction l with
  | nil => simp [splitOnCharList]
  | cons x xs ih =>
    match hr : splitOnCharList c xs with
    | [] => exact absurd hr (splitOnCharList_ne_nil c xs)
    | h :: t =>
      simp only [splitOnCharList]
      rw [hr]
      rw [hr] at ih
      by_cases hx : x = c
      · subst hx
        rw [if_pos rfl]
        simp only [List.length_cons] at ih ⊢
        rw [List.count_cons_self]
        omega
      · rw [if_neg hx]
        simp only [List.headD_cons, List.tail_cons, List.length_cons] at ih ⊢
        rw [List.count_cons_of_ne (fun h => hx h.symm)]
        omega

theorem getLastD_splitOnCharList (c : Char) (y : List Char) (hy : c ∉ y) :
    ∀ x : List Char, (splitOnCharList c (x ++ c :: y)).getLastD [] = y := by
  intro x
  induction x with
  | nil =>
    simp only [List.nil_append, splitOnCharList]
    rw [splitOnCharList_of_not_mem c y hy]
    simp [List.getLastD_cons]
  | cons a x' ih =>
    match hr : splitOnCharList c (x' ++ c :: y) with
    | [] => exact absurd hr (splitOnCharList_ne_nil c _)
    | h :: t =>
      have hlen : (h :: t).length = (x' ++ c :: y).count c + 1 := by
        rw [← hr]; exact splitOnCharList_length c _
      have ht : t ≠ [] := by
        intro hte
        subst hte
        simp only [List.length_cons, List.length_nil] at hlen
        rw [List.count_append, List.count_cons_self] at hlen
        omega
      simp only [List.cons_append, splitOnCharList, List.append_eq]
      rw [hr]
      rw [hr] at ih
      by_cases ha : a = c
      · rw [if_pos ha]
        rw [List.getLastD_cons]
        exact ih
      · rw [if_neg ha]
        simp only [List.headD_cons, List.tail_cons]
        rw [List.getLastD_cons] at ih
        cases t with
        | nil => exact absurd rfl ht
        | cons b t' =>
          rw [List.getLastD_cons, List.getLastD_cons]
          rw [List.getLastD_cons] at ih
          exact ih

theorem toNat_ofNatAux (n : Nat) (h : n.isValidChar) :
    (Char.ofNatAux n h).toNat = n := rfl

theorem toLower_eq_dot {c : Char} (h : c.toLower = '.') : c = '.' := by
  by_cases hc : c.toNat ≥ 65 ∧ c.toNat ≤ 90
  · exfalso
    simp only [Char.toLower] at h
    rw [if_pos hc] at h
    have hv : (c.toNat + 32).isValidChar := Or.inl (by omega)
    rw [Char.ofNat, dif_pos hv] at h
    have h46 := congrArg Char.toNat h
    rw [toNat_ofNatAux] at h46
    have hdot : ('.' : Char).toNat = 46 := by decide
    omega
  · simp only [Char.toLower] at h
    rw [if_neg hc] at h
    exact h

theorem lowerChars_ext (pre e : List Char) (he : '.' ∉ e) :
    (splitOnCharList '.' (lowerChars (pre ++ '.' :: e))).getLastD []
      = lowerChars e := by
  have hlow : lowerChars (pre ++ '.' :: e)
      = lowerChars pre ++ '.' :: lowerChars e := by
    simp only [lowerChars, List.map_append, List.map_cons]
    rw [show Char.toLower '.' = '.' from by decide]
  have hmem : '.' ∉ lowerChars e := by
    intro hm
    obtain ⟨a, ha, hla⟩ := List.mem_map.mp hm
    exact he (toLower_eq_dot hla ▸ ha)
  rw [hlow]
  exact getLastD_splitOnCharList '.' (lowerChars e) hmem (lowerChars pre)

theorem load_document_unsupported (pre e : List Char) (hdot : '.' ∉ e)
    (hpdf : lowerChars e ≠ "pdf".data) (htxt : lowerChars e ≠ "txt".data)
    (pdfLoad txtLoad : List Char → List PyDocument) :
    load_document pdfLoad txtLoad (pre ++ '.' :: e)
      = .error (.unsupportedFormat (lowerChars e)) := by
  have hext := lowerChars_ext pre e hdot
  unfold load_document
  rw [hext, if_neg (by simpa using hpdf), if_neg (by simpa using htxt)]

/-- C5: for every file path whose extension — the segment after the last
dot, compared case-insensitively — is neither `pdf` nor `txt`,
`DataLoader.load_document` fails with the unsupported-format error, for
every possible pair of parsers (so no parsing is attempted); for `.pdf`
and `.txt` extensions it dispatches to the corresponding registered
parser and returns that parser's list of raw units. -/
theorem C5_loader_dispatch (pre e : List Char) (hdot : '.' ∉ e) :
    (lowerChars e ≠ "pdf".data → lowerChars e ≠ "txt".data →
      ∀ pdfLoad txtLoad, load_document pdfLoad txtLoad (pre ++ '.' :: e)
        = .error (.unsupportedFormat (lowerChars e))) ∧
    (lowerChars e = "pdf".data →
      ∀ pdfLoad txtLoad, load_document pdfLoad txtLoad (pre ++ '.' :: e)
        = .ok (pdfLoad (pre ++ '.' :: e))) ∧
    (lowerChars e = "txt".data →
      ∀ pdfLoad txtLoad, load_document pdfLoad txtLoad (pre ++ '.' :: e)
        = .ok (txtLoad (pre ++ '.' :: e))) := by
  have hext := lowerChars_ext pre e hdot
  refine ⟨?_, ?_, ?_⟩
  · intro hpdf htxt pdfLoad txtLoad
    exact load_document_unsupported pre e hdot hpdf htxt pdfLoad txtLoad
  · intro hpdf pdfLoad txtLoad
    unfold load_document
    rw [hext, if_pos (by rw [hpdf])]
  · intro htxt pdfLoad txtLoad
    unfold load_document
    rw [hext, if_neg (by simp [htxt]), if_pos (by rw [htxt])]

theorem C5_witness :
    ('.' ∉ "docx".data) ∧
      load_document (fun _ => []) (fun _ => []) ("doc".data ++ '.' :: "docx".data)
        = .error (.unsupportedFormat (lowerChars "docx".data)) :=
  ⟨by decide,
    (C5_loader_dispatch "doc".data "docx".data (by decide)).1
      (by decide) (by decide) (fun _ => []) (fun _ => [])⟩

/-! ### The upload endpoint (main.py `upload_document`) -/

/-- A record of the vector-store collection: generated id, text,
embedding vector and metadata contents
(`VectorStore.store_documents`, vector_store.py lines 71–102). -/
structure Record where
  rid : Nat
  text : List Char
  vector : List Int
  meta : List (String × String)
deriving DecidableEq, Repr

/-- `os.path.splitext(p)[1]`: the extension (with its dot) of the last
path component, empty when the component has no dot beyond leading
dots. -/
def splitext_ext (p : List Char) : List Char :=
  if '.' ∈ ((splitOnCharList '/' p).getLastD []).dropWhile (· == '.') then
    '.' :: (splitOnCharList '.'
      (((splitOnCharList '/' p).getLastD []).dropWhile (· == '.'))).getLastD []
  else []

/-- `VectorStore.store_documents` (vector_store.py lines 64–102): embed
each chunk, pair it with a freshly generated unique id (drawn from the
counter `n`, modelling `doc_{uuid4()}`), and append the records to the
collection in order.  The embedding function is a parameter. -/
def store_documents (embed : List Char → List Int) :
    Nat → List PyDocument → List Record → List Record × Nat
  | n, [], store => (store, n)
  | n, d :: ds, store =>
    store_documents embed (n + 1) ds
      (store ++ [⟨n, d.page_content, embed d.page_content, d.metadata.entries⟩])

/-- The HTTP outcome of `POST /upload`: the success JSON
`{message, chunks}` or an `HTTPException(status_code=500, detail=str(e))`. -/
inductive UploadResponse where
  | success (message : String) (chunks : Nat)
  | failure (status : Nat) (detail : List Char)
deriving DecidableEq, Repr

/-- `upload_document` (main.py lines 80–127): write the upload to a
temporary file whose name is the generated `tmpBase` plus the original
filename's `os.path.splitext` suffix, then load, split, embed and store;
any raised error is caught and turned into HTTP 500 with `str(e)` as
detail, in which case the store is left as it was.  Returns the response
and the resulting collection contents. -/
def upload_document (pdfLoad txtLoad : List Char → List PyDocument)
    (embed : List Char → List Int) (cs co : Nat) (tmpBase filename : List Char)
    (n : Nat) (store : List Record) : UploadResponse × List Record :=
  match load_document pdfLoad txtLoad (tmpBase ++ splitext_ext filename) with
  | .error e => (.failure 500 e.message, store)
  | .ok docs =>
    (.success "Document processed successfully"
        (split_documents cs co n docs).1.length,
      (store_documents embed (split_documents cs co n docs).2
        (split_documents cs co n docs).1 store).1)

/-- C6: when `POST /upload` receives a file with an unsupported extension
(here: `os.path.splitext` yields `.e` with the lowercased `e` neither
`pdf` nor `txt`), the endpoint responds HTTP 500 with a string detail and
the vector-store collection is left exactly unchanged — no record is
added, for every parser and embedder and every prior store contents. -/
theorem C6_upload_unsupported_no_mutation
    (pdfLoad txtLoad : List Char → List PyDocument) (embed : List Char → List Int)
    (cs co n : Nat) (tmpBase filename e : List Char) (store : List Record)
    (hsplit : splitext_ext filename = '.' :: e) (hdot : '.' ∉ e)
    (hpdf : lowerChars e ≠ "pdf".data) (htxt : lowerChars e ≠ "txt".data) :
    upload_document pdfLoad txtLoad embed cs co tmpBase filename n store
      = (.failure 500 ("Unsupported file extension: ".data ++ lowerChars e), store) := by
  unfold upload_document
  rw [hsplit, load_document_unsupported tmpBase e hdot hpdf htxt pdfLoad txtLoad]
  rfl

theorem C6_witness :
    splitext_ext "report.docx".data = '.' :: "docx".data ∧
      upload_document (fun _ => []) (fun _ => []) (fun _ => [])
          2000 400 "tmpabc123".data "report.docx".data 7
          [⟨0, "old".data, [1], [("page", "1")]⟩]
        = (.failure 500 ("Unsupported file extension: ".data ++ lowerChars "docx".data),
           [⟨0, "old".data, [1], [("page", "1")]⟩]) :=
  ⟨by decide,
    C6_upload_unsupported_no_mutation (fun _ => []) (fun _ => []) (fun _ => [])
      2000 400 7 "tmpabc123".data "report.docx".data "docx".data
      [⟨0, "old".data, [1], [("page", "1")]⟩]
      (by decide) (by decide) (by decide) (by decide)⟩

/-! ### The RAG chain (rag_chain.py) and the query endpoint (main.py) -/

def ctxPat : List Char := "\x7bcontext\x7d".data

def qPat : List Char := "\x7bquestion\x7d".data

/-- Worker for `formatTmpl`; `fuel` makes the recursion structural and is
instantiated with the template length, so its exhaustion branch is
unreachable. -/
def formatTmplAux (ctxv qv : List Char) : Nat → List Char → List Char
  | _, [] => []
  | 0, l => l
  | fuel + 1, c :: rest =>
    if listStartsWith ctxPat (c :: rest) then
      ctxv ++ formatTmplAux ctxv qv fuel (rest.drop (ctxPat.length - 1))
    else if listStartsWith qPat (c :: rest) then
      qv ++ formatTmplAux ctxv qv fuel (rest.drop (qPat.length - 1))
    else
      c :: formatTmplAux ctxv qv fuel rest

/-- Python `str.format` specialised to this template's two placeholders:
a single left-to-right pass over the template substituting each
occurrence of `{context}` and `{question}` (substituted values are not
re-scanned). -/
def formatTmpl (ctxv qv tmpl : List Char) : List Char :=
  formatTmplAux ctxv qv tmpl.length tmpl

/-- The fixed prompt template of `RAGChain.__init__`
(rag_chain.py lines 13–23), character for character. -/
def promptTemplate : List Char :=
  ("You are a helpful AI assistant. Use the following pieces of context to answer the question at the end. \n"
    ++ "            The context contains relevant excerpts from the document. Analyze the context carefully and provide a detailed answer.\n"
    ++ "            \n"
    ++ "            If you don\x27t know the answer, just say that you don\x27t know, don\x27t try to make up an answer.\n"
    ++ "            Make sure to use the specific information from the context to answer the question.\n"
    ++ "            \n"
    ++ "            Context: \x7bcontext\x7d\n"
    ++ "            \n"
    ++ "            Question: \x7bquestion\x7d\n"
    ++ "            \n"
    ++ "            Answer: ").data

/-- The prompt built by `RAGChain.generate_streaming_response`
(rag_chain.py lines 31 and 38): the context chunk texts joined by
`"\n\n"` and substituted into the fixed template with the question. -/
def ragChainPrompt (context : List PyDocument) (question : List Char) : List Char :=
  formatTmpl (strJoin "\n\n".data (context.map (fun d => d.page_content)))
    question promptTemplate

def hexDigit (n : Nat) : Char :=
  Char.ofNat (if n < 10 then 48 + n else 87 + n)

/-- A `\uXXXX` escape with four lowercase hex digits. -/
def uEscape (n : Nat) : List Char :=
  ['\\', 'u', hexDigit (n / 4096 % 16), hexDigit (n / 256 % 16),
    hexDigit (n / 16 % 16), hexDigit (n % 16)]

/-- The escaping of one character performed by Python `json.dumps` with
the default `ensure_ascii=True`: quote, backslash and the short control
escapes, printable ASCII verbatim, everything else as `\uXXXX`
(astral codepoints as a surrogate pair). -/
def jsonEscapeChar (c : Char) : List Char :=
  if c = '"' then ['\\', '"']
  else if c = '\\' then ['\\', '\\']
  else if c = '\n' then ['\\', 'n']
  else if c = '\x0d' then ['\\', 'r']
  else if c = '\t' then ['\\', 't']
  else if c = '\x08' then ['\\', 'b']
  else if c = '\x0c' then ['\\', 'f']
  else if 32 ≤ c.toNat ∧ c.toNat ≤ 126 then [c]
  else if c.toNat < 65536 then uEscape c.toNat
  else uEscape (55296 + (c.toNat - 65536) / 1024)
    ++ uEscape (56320 + (c.toNat - 65536) % 1024)

/-- The JSON string literal encoding `s`. -/
def jsonString (s : List Char) : List Char :=
  '"' :: (s.map jsonEscapeChar).flatten ++ ['"']

/-- One server-sent event emitted by the streaming generator
(rag_chain.py line 53): `data: ` followed by `json.dumps({'text': chunk})`
and a blank line. -/
def sseEvent (chunk : List Char) : List Char :=
  "data: ".data ++ ("\x7b\"text\": ".data ++ jsonString chunk ++ "\x7d".data)
    ++ "\n\n".data

/-- `RAGChain.generate_streaming_response` (rag_chain.py lines 27–53):
join the context chunk texts, render the prompt, request the token
stream from the external LLM (the parameter `llm`) at that prompt, and
emit one SSE event per non-empty streamed chunk; the event sequence ends
when the upstream stream does. -/
def generate_streaming_response (llm : List Char → List (List Char))
    (context : List PyDocument) (question : List Char) : List (List Char) :=
  (llm (ragChainPrompt context question)).filterMap
    (fun chunk => if chunk.isEmpty then none else some (sseEvent chunk))

/-- `VectorStore.get_relevant_documents` (vector_store.py lines 125–178):
return `[]` immediately when the collection is empty; otherwise embed the
query and ask the external collection for the `k` nearest records,
converted to documents.  `collectionQuery` abstracts the external
`chromadb` nearest-neighbour search. -/
def get_relevant_documents
    (collectionQuery : List Record → List Int → Nat → List (List Char × List (String × String)))
    (embed : List Char → List Int) (store : List Record)
    (query : List Char) (k : Nat) : List PyDocument :=
  if store.length = 0 then []
  else (collectionQuery store (embed query) k).map (fun r => ⟨r.1, ⟨0, r.2⟩⟩)

/-- The outcome of `POST /query` (main.py lines 129–164): a streaming
response carrying the generator's event sequence.  (The pure model has
no failing operations, so the `HTTPException(500)` branch of the source
cannot be taken here.) -/
inductive QueryResponse where
  | stream (events : List (List Char))
deriving DecidableEq, Repr

/-- `query_documents` (main.py lines 129–164): retrieve the relevant
documents (default `k = 12`) and return the streaming response produced
by the generator on them and the question. -/
def query_documents
    (collectionQuery : List Record → List Int → Nat → List (List Char × List (String × String)))
    (embed : List Char → List Int) (llm : List Char → List (List Char))
    (store : List Record) (question : List Char) : QueryResponse :=
  .stream (generate_streaming_response llm
    (get_relevant_documents collectionQuery embed store question 12) question)

/-- C7: if the vector-store collection is empty (count `0`),
`VectorStore.get_relevant_documents` returns the empty list without
consulting the embedder or the nearest-neighbour search (both are
universally quantified, so neither can raise), and `POST /query`
completes its streaming response with the generator invoked on the
empty context list. -/
theorem C7_empty_collection_query
    (collectionQuery : List Record → List Int → Nat → List (List Char × List (String × String)))
    (embed : List Char → List Int) (llm : List Char → List (List Char))
    (question : List Char) (store : List Record) (hempty : store.length = 0) :
    get_relevant_documents collectionQuery embed store question 12 = [] ∧
      query_documents collectionQuery embed llm store question
        = .stream (generate_streaming_response llm [] question) := by
  have h1 : get_relevant_documents collectionQuery embed store question 12 = [] := by
    unfold get_relevant_documents
    rw [if_pos hempty]
  refine ⟨h1, ?_⟩
  unfold query_documents
  rw [h1]

theorem C7_witness :
    ([] : List Record).length = 0 ∧
      query_documents (fun _ _ _ => [("ctx".data, [("page", "1")])]) (fun _ => [])
          (fun _ => ["ok".data]) [] "question".data
        = .stream (generate_streaming_response (fun _ => ["ok".data]) [] "question".data) :=
  ⟨rfl,
    (C7_empty_collection_query (fun _ _ _ => [("ctx".data, [("page", "1")])])
      (fun _ => []) (fun _ => ["ok".data]) "question".data [] rfl).2⟩

/-- C8: every fragment emitted by the `POST /query` streaming response is
a server-sent-event line of the exact form
`data: {"text": <fragment JSON-encoded>}` terminated by a blank line
(`"\n\n"`), and the stream terminates when the upstream LLM stream ends
(at most one event per upstream chunk). -/
theorem C8_sse_event_format (llm : List Char → List (List Char))
    (context : List PyDocument) (question : List Char) :
    (∀ ev ∈ generate_streaming_response llm context question,
      ∃ chunk ∈ llm (ragChainPrompt context question),
        chunk ≠ [] ∧
          ev = "data: ".data
            ++ ("\x7b\"text\": ".data ++ jsonString chunk ++ "\x7d".data)
            ++ "\n\n".data) ∧
      (generate_streaming_response llm context question).length
        ≤ (llm (ragChainPrompt context question)).length := by
  constructor
  · intro ev hev
    obtain ⟨chunk, hc, he⟩ := List.mem_filterMap.mp hev
    by_cases hemp : chunk.isEmpty = true
    · rw [if_pos hemp] at he
      exact absurd he (by simp)
    · rw [if_neg hemp] at he
      refine ⟨chunk, hc, by simpa using hemp, ?_⟩
      rw [← Option.some_inj.mp he]
      rfl
  · exact List.length_filterMap_le _ _

theorem C8_witness :
    ∃ chunk ∈ ["Hello".data],
      chunk ≠ [] ∧
        sseEvent "Hello".data = "data: ".data
          ++ ("\x7b\"text\": ".data ++ jsonString chunk ++ "\x7d".data)
          ++ "\n\n".data :=
  (C8_sse_event_format (fun _ => ["Hello".data]) [] "q".data).1
    (sseEvent "Hello".data) (by decide)

theorem strJoin_eq_intercalate (sep : List Char) :
    ∀ l, strJoin sep l = List.intercalate sep l := by
  intro l
  induction l with
  | nil => simp [strJoin, List.intercalate, List.intersperse]
  | cons x xs ih =>
    cases xs with
    | nil => simp [strJoin, List.intercalate, List.intersperse]
    | cons y ys =>
      simp only [strJoin, List.intercalate, List.intersperse, List.flatten] at ih ⊢
      rw [ih]
      simp [List.append_assoc]

/-- The prompt rendering prescribed by the spec (§4.5), stated from the
spec's words for comparison with the code-side `ragChainPrompt`: the
fixed template with `{context}` replaced by the chunk texts joined by a
blank-line separator in retrieval order and `{question}` replaced by the
question. -/
def specRenderedPrompt (context : List PyDocument) (question : List Char) : List Char :=
  formatTmpl (List.intercalate "\n\n".data (context.map (fun d => d.page_content)))
    question promptTemplate

/-- C9: for every ordered list of retrieved context chunks and every
question, the generator renders the fixed prompt template with
`{context}` replaced by the chunk texts joined by a blank line in
retrieval order and `{question}` by the question, and requests the LLM
token stream at exactly that prompt. -/
theorem C9_prompt_rendering (llm : List Char → List (List Char))
    (context : List PyDocument) (question : List Char) :
    ragChainPrompt context question = specRenderedPrompt context question ∧
      generate_streaming_response llm context question
        = (llm (specRenderedPrompt context question)).filterMap
            (fun chunk => if chunk.isEmpty then none else some (sseEvent chunk)) := by
  have h : ragChainPrompt context question = specRenderedPrompt context question := by
    unfold ragChainPrompt specRenderedPrompt
    rw [strJoin_eq_intercalate]
  refine ⟨h, ?_⟩
  unfold generate_streaming_response
  rw [h]

/-! ### `VectorStore.initialize_chroma` (vector_store.py) -/

/-- A chroma collection: its creation metadata and its records. -/
structure ChromaCollection where
  meta : List (String × String)
  recs : List Record
deriving DecidableEq, Repr

/-- The external chromadb client's persisted state: a mapping from
collection name to collection. -/
abbrev ChromaState := List (String × ChromaCollection)

/-- Modelled from the spec (§4.4 `delete_collection()` — irreversible,
removes all records): deleting a named collection removes it and all its
records; in `initialize_chroma` the call is wrapped in try/except, so a
missing collection is tolerated. -/
def chroma_delete_collection (st : ChromaState) (name : String) : ChromaState :=
  st.filter (fun p => !(p.1 == name))

/-- Modelled from the spec (§3, §4.4): creating a collection adds a new,
empty collection under the given name with the given metadata. -/
def chroma_create_collection (st : ChromaState) (name : String)
    (meta : List (String × String)) : ChromaState :=
  (name, ⟨meta, []⟩) :: st

/-- Look a collection up by name. -/
def chromaLookup (st : ChromaState) (name : String) : Option ChromaCollection :=
  match st with
  | [] => none
  | (k, c) :: rest => if k = name then some c else chromaLookup rest name

/-- `VectorStore.initialize_chroma` (vector_store.py lines 25–62):
delete any existing collection with the store's name (ignoring the error
when none exists), then create a new collection under that name with
cosine distance (`{"hnsw:space": "cosine"}`). -/
def initialize_chroma (st : ChromaState) (name : String) : ChromaState :=
  chroma_create_collection (chroma_delete_collection st name) name
    [("hnsw:space", "cosine")]

/-- C10: constructing a `VectorStore` always yields a fresh empty
collection — after `initialize_chroma`, the store's collection exists
with cosine-distance metadata and zero records, whatever the prior
client state contained under that name (records stored by a previous
`VectorStore` instance under the same name are gone). -/
theorem C10_initialize_chroma_fresh (st : ChromaState) (name : String) :
    chromaLookup (initialize_chroma st name) name
      = some ⟨[("hnsw:space", "cosine")], []⟩ := by
  unfold initialize_chroma chroma_create_collection chromaLookup
  rw [if_pos rfl]

end LlamaBridge
